import Mathlib

/-!
Verification development for the Analysis Index Subsystem of the
vscode-python-override-hint extension (src/src/extension.ts).

The embedding models, as pure Lean functions and explicit state machines:
  * the association-map operations of the JavaScript Map class (mget, mset,
    mdel) used by the cache and the pending-request table;
  * the IntelligentCache class (get, set, setDependencies, invalidateFile,
    findDependents, removeFile, deleteEntry, clear), with the file system
    abstracted as a partial map from paths to modification times and
    persistence tracked by a counter of persistCache calls;
  * the PythonOverrideAnalyzer facade (analyzeFile, lines 998-1047), with the
    worker interaction abstracted as the outcome the processManager promise
    settles with;
  * the PythonProcessManager as a state machine over decoded protocol events
    (readiness line, response lines, process exit, analyzeFile calls, timer
    expirations);
  * the debounce scheduler shared by both DocumentManager variants
    (analysisQueue, lines 1512-1526, and debounceTimers, lines 423-447,
    together with the onDidCloseTextDocument handler, lines 409-420), with
    setTimeout handles modelled as fresh natural numbers and the set of
    scheduled-but-not-cleared timers tracked explicitly.
-/

section MapHelpers

variable {κ α : Type} [DecidableEq κ]

/-- Lookup in an association list, first matching key wins (JavaScript
Map.get: a Map holds at most one entry per key). -/
def mget : List (κ × α) → κ → Option α
  | [], _ => none
  | p :: rest, k => if p.1 = k then some p.2 else mget rest k

/-- JavaScript Map.set: replace the entry in place when the key is present,
append a fresh entry otherwise. -/
def mset : List (κ × α) → κ → α → List (κ × α)
  | [], k, v => [(k, v)]
  | p :: rest, k, v => if p.1 = k then (k, v) :: rest else p :: mset rest k v

/-- JavaScript Map.delete: drop the entry for the key. -/
def mdel (m : List (κ × α)) (k : κ) : List (κ × α) :=
  m.filter (fun p => decide (p.1 ≠ k))

end MapHelpers


/-! Data model: the OverrideInfo interface (src/src/extension.ts lines
610-630) and the raw worker payload it is normalized from. -/

/-- Wire values of the type field: child_override or parent_overridden. -/
inductive OType
  | child_override
  | parent_overridden
deriving DecidableEq

/-- One raw relation object as decoded from a worker response line. The
worker may emit either of the class and class_name keys (spec section 6);
all location fields are optional. -/
structure RawOverride where
  classKey : Option String
  class_name : Option String
  method : String
  line : Nat
  signature : Option String
  type : OType
  base : Option String
  base_file : Option String
  base_file_path : Option String
  base_line : Option Nat
  base_signature : Option String
  child : Option String
  child_file : Option String
  child_file_path : Option String
  child_line : Option Nat
  child_signature : Option String
deriving DecidableEq

/-- The OverrideInfo interface: the normalized relation record. The field
classKey embeds the TypeScript field named class (a Lean keyword). -/
structure OverrideInfo where
  classKey : String
  method : String
  line : Nat
  signature : Option String
  type : OType
  base : Option String
  base_file : Option String
  base_file_path : Option String
  base_line : Option Nat
  base_signature : Option String
  child : Option String
  child_file : Option String
  child_file_path : Option String
  child_line : Option Nat
  child_signature : Option String
deriving DecidableEq

/-- Normalization step of PythonOverrideAnalyzer.analyzeFile (lines
1012-1028): r.class or else r.class_name or else the empty string; every
other field is copied unchanged. -/
def normalizeRaw (r : RawOverride) : OverrideInfo :=
  { classKey := ((r.classKey).orElse (fun _ => r.class_name)).getD ""
    method := r.method
    line := r.line
    signature := r.signature
    type := r.type
    base := r.base
    base_file := r.base_file
    base_file_path := r.base_file_path
    base_line := r.base_line
    base_signature := r.base_signature
    child := r.child
    child_file := r.child_file
    child_file_path := r.child_file_path
    child_line := r.child_line
    child_signature := r.child_signature }

/-- JavaScript truthiness for an optional string: present and non-empty. -/
def truthyStr : Option String → Bool
  | some s => !(s = "")
  | none => false

/-- Dependency extraction of analyzeFile (lines 1033-1037): for each
relation push base_file_path when it is a truthy child_override peer, and
child_file_path when it is a truthy parent_overridden peer. -/
def depsOfOverrides : List OverrideInfo → List String
  | [] => []
  | o :: rest =>
      (if o.type = OType.child_override ∧ truthyStr o.base_file_path then
        [o.base_file_path.getD ""] else []) ++
      (if o.type = OType.parent_overridden ∧ truthyStr o.child_file_path then
        [o.child_file_path.getD ""] else []) ++
      depsOfOverrides rest

/-- Insertion-order deduplication, as Array.from applied to a Set built
from a list. -/
def dedupFirst (l : List String) : List String :=
  l.foldl (fun acc x => if x ∈ acc then acc else acc ++ [x]) []

/-! The IntelligentCache class (lines 817-956). The file system is
abstracted as a partial map from absolute paths to modification times
(fs.statSync succeeds exactly on the files the map defines, returning
mtimeMs); persistCache is modelled by a counter of snapshot writes. -/

/-- A cached per-file result: the relations plus the source file's
modification time at analysis time. -/
structure FileEntry where
  overrides : List OverrideInfo
  lastModified : Nat
deriving DecidableEq

/-- The ProjectIndex owned by IntelligentCache (lines 635-639). -/
structure CacheState where
  files : List (String × FileEntry)
  dependencies : List (String × List String)
  lastScan : Nat
  persistCount : Nat
deriving DecidableEq

/-- The file system as seen through fs.statSync: path to mtimeMs. -/
def FS : Type := String → Option Nat

namespace IntelligentCache

/-- persistCache (lines 866-883): writes the snapshot; modelled as a
counter increment (write failures are logged and swallowed). -/
def persistCache (c : CacheState) : CacheState :=
  { c with persistCount := c.persistCount + 1 }

/-- get (lines 885-901): return the entry only when the file still exists
and its mtime has not risen above the stored lastModified; otherwise
evict the entry and miss. Returns the updated ProjectIndex paired with
the result. -/
def get (c : CacheState) (fs : FS) (filePath : String) :
    CacheState × Option (List OverrideInfo) :=
  match mget c.files filePath with
  | none => (c, none)
  | some cached =>
      match fs filePath with
      | some mtime =>
          if cached.lastModified < mtime then
            ({ c with files := mdel c.files filePath }, none)
          else (c, some cached.overrides)
      | none => ({ c with files := mdel c.files filePath }, none)

/-- set (lines 903-914): stat the file; on success store the entry stamped
with the current mtime and persist; when statSync throws the catch block
ignores the error and nothing happens. -/
def set (c : CacheState) (fs : FS) (filePath : String)
    (overrides : List OverrideInfo) : CacheState :=
  match fs filePath with
  | some mtime =>
      persistCache
        { c with files := mset c.files filePath ⟨overrides, mtime⟩ }
  | none => c

/-- setDependencies (lines 831-835): store the deduplicated truthy peer
list and persist. -/
def setDependencies (c : CacheState) (filePath : String)
    (deps : List String) : CacheState :=
  let unique := dedupFirst (deps.filter (fun s => !(s = "")))
  persistCache { c with dependencies := mset c.dependencies filePath unique }

/-- findDependents (lines 930-938): every file whose stored dependency
list includes filePath, in map iteration order. -/
def findDependents (c : CacheState) (filePath : String) : List String :=
  (c.dependencies.filter (fun p => decide (filePath ∈ p.2))).map Prod.fst

/-- invalidateFile (lines 916-922): delete the file's own entry, then the
entry of every dependent found by scanning the dependency map, then
persist. -/
def invalidateFile (c : CacheState) (filePath : String) : CacheState :=
  let c1 := { c with files := mdel c.files filePath }
  let dependents := findDependents c1 filePath
  persistCache
    { c1 with files := dependents.foldl (fun fl dep => mdel fl dep) c1.files }

/-- removeFile (lines 924-928): on deletion drop both the entry and the
dependency row, then persist. -/
def removeFile (c : CacheState) (filePath : String) : CacheState :=
  persistCache
    { c with files := mdel c.files filePath,
             dependencies := mdel c.dependencies filePath }

/-- The public delete method (lines 946-949). -/
def deleteEntry (c : CacheState) (filePath : String) : CacheState :=
  persistCache { c with files := mdel c.files filePath }

/-- clear (lines 951-955). -/
def clear (c : CacheState) : CacheState :=
  persistCache { c with files := [], dependencies := [] }

end IntelligentCache

/-! The PythonOverrideAnalyzer facade (lines 961-1090). The worker
interaction is abstracted as the outcome with which the promise returned
by processManager.analyzeFile settles: a raw relation list on success, or
the rejection message on failure (timeout, process terminated, response
error, write error). initialize is assumed to succeed; a SpawnFailure
raised by the lazy initialize propagates to the caller (spec section 7)
and is outside this model. -/

structure AnalyzerState where
  cache : CacheState
  isInitialized : Bool
deriving DecidableEq

/-- Observable result of one facade analyzeFile call: the final state, the
returned relations, whether the worker link was consulted, and whether a
restart was triggered by the catch block. -/
structure AnalyzeFileResult where
  state : AnalyzerState
  relations : List OverrideInfo
  workerCalled : Bool
  restartTriggered : Bool
deriving DecidableEq

/-- PythonOverrideAnalyzer.analyzeFile (lines 998-1047): consult the cache;
on hit return the cached relations; on miss ask the worker, then on
success normalize, cache the result, record the dependency set and return
it, and on failure trigger a best-effort restart and return the empty
list. -/
def PythonOverrideAnalyzer.analyzeFile (s : AnalyzerState) (fs : FS)
    (filePath : String) (worker : Except String (List RawOverride)) :
    AnalyzeFileResult :=
  match IntelligentCache.get s.cache fs filePath with
  | (c1, some cached) => ⟨⟨c1, s.isInitialized⟩, cached, false, false⟩
  | (c1, none) =>
      match worker with
      | Except.ok raw =>
          let overrides := raw.map normalizeRaw
          let c2 := IntelligentCache.set c1 fs filePath overrides
          let c3 := IntelligentCache.setDependencies c2 filePath
            (depsOfOverrides overrides)
          ⟨⟨c3, true⟩, overrides, true, false⟩
      | Except.error _ => ⟨⟨c1, true⟩, [], true, true⟩

/-! The PythonProcessManager (lines 644-812), as a state machine over the
decoded protocol events. Correlation ids req_n are modelled by their
counter value n. The single readyPromise created in the constructor
(lines 653-657) is modelled by the flag readyResolved: once true it stays
true, because the promise is never recreated; the isReady flag mirrors
the field of the same name. curGenReady is an auxiliary observation: it
records whether the currently spawned process (if any) has emitted its
readiness line, so that a request line written before the current
process is ready can be distinguished in the send log. -/

/-- Outcome with which the promise of one analyzeFile request settles. -/
inductive MOutcome
  | ok (result : List RawOverride)
  | err (msg : String)
  | timeout (filePath : String)
  | terminated
deriving DecidableEq

/-- One request line written to the worker's stdin, together with whether
the currently running process had already emitted readiness at that
moment. -/
structure SentRec where
  id : Nat
  filePath : String
  genReadyAtSend : Bool
deriving DecidableEq

/-- State of the PythonProcessManager: process reference, id counter,
pending-request table, readiness flag, the one-shot readiness promise,
callers suspended on it, plus the observation logs sent and settled. -/
structure MgrState where
  procAlive : Bool
  messageId : Nat
  pending : List (Nat × String)
  isReady : Bool
  readyResolved : Bool
  waiters : List String
  curGenReady : Bool
  sent : List SentRec
  settled : List (Nat × MOutcome)
deriving DecidableEq

/-- Freshly constructed manager (constructor, lines 653-657). -/
def initMgr : MgrState :=
  { procAlive := false, messageId := 0, pending := [], isReady := false,
    readyResolved := false, waiters := [], curGenReady := false,
    sent := [], settled := [] }

/-- Body of analyzeFile after the readiness await (lines 759-782):
allocate the next id, arm the timer, register the pending entry, then
write one request line; the write uses optional chaining, so with no
process nothing is written and the entry is left to its timer. -/
def sendRequest (s : MgrState) (filePath : String) : MgrState :=
  let id := s.messageId + 1
  let s1 := { s with messageId := id, pending := s.pending ++ [(id, filePath)] }
  if s1.procAlive then
    { s1 with sent := s1.sent ++ [⟨id, filePath, s1.curGenReady⟩] }
  else s1

/-- Events driving the manager: a start call, the decoded ready line, a
decoded response line bearing an id, process exit or error, an
analyzeFile call, and the expiry of a request timer. -/
inductive MEvent
  | start
  | ready
  | line (id : Nat) (err : Option String) (result : Option (List RawOverride))
  | procDied
  | analyze (filePath : String)
  | timerFire (id : Nat)
deriving DecidableEq

/-- One step of the manager.
start (lines 659-681): spawn only when no process is running.
ready (lines 722-726): set isReady, resolve the one-shot promise, which
resumes every waiter in FIFO order; each resumed call then sends.
line (handleResponse, lines 736-752): match strictly by id; unmatched
responses change nothing; a matched entry is removed, its timer cleared,
and its promise settled — rejected when the error field is truthy,
resolved with result or else the empty list otherwise.
procDied (cleanup, lines 785-797): reset readiness, clear the process
reference, reject every pending request with the process-terminated
error and empty the table. A restart (lines 799-803) is the trace
procDied followed by start.
analyze (lines 754-757): when isReady the body runs at once; when not
ready the call awaits readyPromise — which suspends only if the promise
has never resolved, and otherwise continues immediately.
timerFire (lines 767-770): the timer deletes the pending entry and
rejects with the timeout error; timers only fire while their entry is
still pending, since every removal path clears the timer. -/
def mstep (s : MgrState) (e : MEvent) : MgrState :=
  match e with
  | MEvent.start =>
      if s.procAlive then s
      else { s with procAlive := true, curGenReady := false }
  | MEvent.ready =>
      let s1 :=
        { s with
          isReady := true
          readyResolved := true
          curGenReady := true
          waiters := [] }
      s.waiters.foldl sendRequest s1
  | MEvent.line id err result =>
      match mget s.pending id with
      | none => s
      | some _ =>
          let s1 := { s with pending := mdel s.pending id }
          match err with
          | some m =>
              if m = "" then
                { s1 with settled := s1.settled ++ [(id, MOutcome.ok (result.getD []))] }
              else
                { s1 with settled := s1.settled ++ [(id, MOutcome.err m)] }
          | none =>
              { s1 with settled := s1.settled ++ [(id, MOutcome.ok (result.getD []))] }
  | MEvent.procDied =>
      { s with
        isReady := false
        procAlive := false
        curGenReady := false
        settled := s.settled ++ s.pending.map (fun p => (p.1, MOutcome.terminated))
        pending := [] }
  | MEvent.analyze filePath =>
      if s.isReady then sendRequest s filePath
      else if s.readyResolved then sendRequest s filePath
      else { s with waiters := s.waiters ++ [filePath] }
  | MEvent.timerFire id =>
      match mget s.pending id with
      | none => s
      | some fp =>
          { s with
            pending := mdel s.pending id
            settled := s.settled ++ [(id, MOutcome.timeout fp)] }

/-- Run the manager from its constructor state over a trace of events. -/
def runM (tr : List MEvent) : MgrState :=
  tr.foldl mstep initMgr

/-- Readiness invariant of reachable manager states: the isReady flag
implies the one-shot promise has resolved, and before the first
readiness signal no request line has ever been written. -/
def MgrInv (s : MgrState) : Prop :=
  (s.isReady = true → s.readyResolved = true) ∧
  (s.readyResolved = false → s.sent = [])

/-! The debounce scheduler. Both DocumentManager variants carry the same
per-file debounce structure: a map from file path to the live setTimeout
handle (debounceTimers, line 367, with scheduleAnalysis at lines 423-447;
analysisQueue, line 1421, with scheduleAnalysis at lines 1512-1526).
Timer handles are modelled as fresh naturals drawn from nextTimer; active
is the set of handles that have been scheduled and neither cleared nor
fired; invocations logs each fired downstream analysis-and-render step. -/

structure DebounceState where
  queue : List (String × Nat)
  nextTimer : Nat
  active : List (Nat × String)
  invocations : List (Nat × String)
deriving DecidableEq

/-- scheduleAnalysis (lines 1512-1526, and identically lines 423-447):
clear the timer currently registered for the file, if any, then register
a fresh timer for it. -/
def scheduleAnalysis (s : DebounceState) (filePath : String) : DebounceState :=
  let active1 :=
    match mget s.queue filePath with
    | some t => s.active.filter (fun p => decide (p.1 ≠ t))
    | none => s.active
  { queue := mset s.queue filePath s.nextTimer
    nextTimer := s.nextTimer + 1
    active := active1 ++ [(s.nextTimer, filePath)]
    invocations := s.invocations }

/-- Expiry of a live timer: the callback runs the downstream
analysis-and-render step once and removes itself from the pending set
(lines 1520-1523; lines 435-444 do the removal in a finally block). A
handle that is not active was cleared or already fired and never runs. -/
def timerFire (s : DebounceState) (t : Nat) : DebounceState :=
  match s.active.find? (fun p => decide (p.1 = t)) with
  | none => s
  | some p =>
      { queue := mdel s.queue p.2
        nextTimer := s.nextTimer
        active := s.active.filter (fun q => decide (q.1 ≠ t))
        invocations := s.invocations ++ [(t, p.2)] }

/-- The onDidCloseTextDocument handler (lines 409-420): when the closed
file has a pending timer, clear it and drop it from the map, without
invoking the downstream step. -/
def closeDocument (s : DebounceState) (filePath : String) : DebounceState :=
  match mget s.queue filePath with
  | none => s
  | some t =>
      { queue := mdel s.queue filePath
        nextTimer := s.nextTimer
        active := s.active.filter (fun p => decide (p.1 ≠ t))
        invocations := s.invocations }

/-- Events driving the scheduler: a trigger event for a file, a timer
expiry, and a document close. -/
inductive DEvent
  | schedule (filePath : String)
  | fire (t : Nat)
  | close (filePath : String)
deriving DecidableEq

def dstep (s : DebounceState) (e : DEvent) : DebounceState :=
  match e with
  | DEvent.schedule f => scheduleAnalysis s f
  | DEvent.fire t => timerFire s t
  | DEvent.close f => closeDocument s f

/-- Scheduler state at startup: no timers, no pending map entries. -/
def initD : DebounceState :=
  { queue := [], nextTimer := 0, active := [], invocations := [] }

/-- Run the scheduler from startup over a trace of events. -/
def runD (tr : List DEvent) : DebounceState :=
  tr.foldl dstep initD

/-- The live timers registered for one file. -/
def activeFor (s : DebounceState) (f : String) : List (Nat × String) :=
  s.active.filter (fun p => decide (p.2 = f))

/-- N consecutive trigger events for the same file (all within the
debounce window, so no timer fires in between). -/
def schedN (f : String) : Nat → DebounceState → DebounceState
  | 0, s => s
  | n + 1, s => scheduleAnalysis (schedN f n s) f

/-- Well-formedness of a scheduler state, maintained by every event: map
keys are unique (a JavaScript Map invariant), every registered handle was
drawn from the counter, distinct files hold distinct handles, the active
timers are exactly the registered ones, and the active list has no
duplicates. -/
structure DWF (s : DebounceState) : Prop where
  keys_nodup : (s.queue.map Prod.fst).Nodup
  vals_lt : ∀ p ∈ s.queue, p.2 < s.nextTimer
  vals_inj : ∀ f g t, mget s.queue f = some t → mget s.queue g = some t → f = g
  act_iff : ∀ t f, (t, f) ∈ s.active ↔ mget s.queue f = some t
  act_nodup : s.active.Nodup

/-! Concrete states used to instantiate the theorems below on closed
inputs. -/

/-- The relation of the spec section 8 scenario: Dog.speak at line 5
overrides Animal.speak at /p/b.py line 2, as emitted by the worker. -/
def rawDogSpeak : RawOverride :=
  { classKey := some "Dog"
    class_name := none
    method := "speak"
    line := 5
    signature := none
    type := OType.child_override
    base := some "Animal"
    base_file := some "b.py"
    base_file_path := some "/p/b.py"
    base_line := some 2
    base_signature := none
    child := none
    child_file := none
    child_file_path := none
    child_line := none
    child_signature := none }

/-- A cache whose stored dependency sets read: x depends on y, z depends
on x. Invalidating y must evict x and y but keep z. -/
def cacheC3 : CacheState :=
  { files := [("/p/x.py", ⟨[], 10⟩), ("/p/y.py", ⟨[], 10⟩), ("/p/z.py", ⟨[], 10⟩)]
    dependencies := [("/p/x.py", ["/p/y.py"]), ("/p/z.py", ["/p/x.py"])]
    lastScan := 0
    persistCount := 0 }

/-- A file system holding just /p/a.py, last modified at time 5. -/
def fsA : FS := fun f => if f = "/p/a.py" then some 5 else none

/-- The empty cache. -/
def cache0 : CacheState :=
  { files := [], dependencies := [], lastScan := 0, persistCount := 0 }

/-- A cache holding an entry for /p/a.py stamped with time 5. -/
def cacheA : CacheState :=
  { files := [("/p/a.py", ⟨[normalizeRaw rawDogSpeak], 5⟩)]
    dependencies := []
    lastScan := 0
    persistCount := 0 }

/-- A ready manager with three pending requests req_1, req_2, req_3. -/
def mgrThreePending : MgrState :=
  { procAlive := true, messageId := 3
    pending := [(1, "/p/f1.py"), (2, "/p/f2.py"), (3, "/p/f3.py")]
    isReady := true, readyResolved := true, waiters := []
    curGenReady := true, sent := [], settled := [] }

/-- A ready manager with the single pending request req_7. -/
def mgrOnePending : MgrState :=
  { procAlive := true, messageId := 7
    pending := [(7, "/p/a.py")]
    isReady := true, readyResolved := true, waiters := []
    curGenReady := true, sent := [], settled := [] }

/-- A ready manager with two pending requests req_1 and req_2. -/
def mgrTwoPending : MgrState :=
  { procAlive := true, messageId := 2
    pending := [(1, "/p/a.py"), (2, "/p/b.py")]
    isReady := true, readyResolved := true, waiters := []
    curGenReady := true, sent := [], settled := [] }

/-! Association-map lemmas. -/

section MapLemmas

variable {κ α : Type} [DecidableEq κ]

theorem mget_mset_self (m : List (κ × α)) (k : κ) (v : α) :
    mget (mset m k v) k = some v := by
  induction m with
  | nil => simp [mset, mget]
  | cons p rest ih =>
      by_cases h : p.1 = k
      · simp [mset, mget, h]
      · simp [mset, mget, h, ih]

theorem mget_mset_ne (m : List (κ × α)) {k k' : κ} (v : α) (h : k' ≠ k) :
    mget (mset m k v) k' = mget m k' := by
  have hk : ¬ k = k' := fun h' => h h'.symm
  induction m with
  | nil => simp [mset, mget, hk]
  | cons p rest ih =>
      by_cases hp : p.1 = k
      · subst hp
        simp [mset, mget, hk]
      · simp [mset, mget, hp, ih]

theorem mget_mdel_self (m : List (κ × α)) (k : κ) :
    mget (mdel m k) k = none := by
  induction m with
  | nil => simp [mdel, mget]
  | cons p rest ih =>
      by_cases h : p.1 = k
      · simpa [mdel, List.filter_cons, h] using ih
      · simpa [mdel, List.filter_cons, h, mget] using ih

theorem mget_mdel_ne (m : List (κ × α)) {k k' : κ} (h : k' ≠ k) :
    mget (mdel m k) k' = mget m k' := by
  induction m with
  | nil => simp [mdel, mget]
  | cons p rest ih =>
      by_cases hp : p.1 = k
      · have hp' : ¬ p.1 = k' := by rw [hp]; exact fun h' => h h'.symm
        rw [show mdel (p :: rest) k = mdel rest k from by
          simp [mdel, List.filter_cons, hp]]
        rw [ih]
        simp [mget, hp']
      · rw [show mdel (p :: rest) k = p :: mdel rest k from by
          simp [mdel, List.filter_cons, hp]]
        simp [mget, ih]

theorem mget_mem {m : List (κ × α)} {k : κ} {v : α}
    (h : mget m k = some v) : (k, v) ∈ m := by
  induction m with
  | nil => simp [mget] at h
  | cons p rest ih =>
      obtain ⟨a, b⟩ := p
      by_cases hp : a = k
      · simp [mget, hp] at h
        subst hp
        subst h
        exact List.mem_cons_self _ _
      · simp [mget, hp] at h
        exact List.mem_cons_of_mem _ (ih h)

theorem mem_mset {m : List (κ × α)} {k : κ} {v : α} {p : κ × α}
    (h : p ∈ mset m k v) : p ∈ m ∨ p = (k, v) := by
  induction m with
  | nil => simp [mset] at h; simp [h]
  | cons q rest ih =>
      by_cases hq : q.1 = k
      · simp [mset, hq] at h
        rcases h with h | h
        · right; simp [h]
        · left; exact List.mem_cons_of_mem _ h
      · simp [mset, hq] at h
        rcases h with h | h
        · left; simp [h]
        · rcases ih h with h' | h'
          · left; exact List.mem_cons_of_mem _ h'
          · right; exact h'

theorem mem_keys_mset {m : List (κ × α)} {k a : κ} {v : α}
    (h : a ∈ (mset m k v).map Prod.fst) : a ∈ m.map Prod.fst ∨ a = k := by
  rcases List.mem_map.mp h with ⟨p, hp, hfst⟩
  rcases mem_mset hp with h' | h'
  · left; exact hfst ▸ List.mem_map_of_mem Prod.fst h'
  · right; rw [← hfst, h']

theorem keys_nodup_mset {m : List (κ × α)} (k : κ) (v : α)
    (h : (m.map Prod.fst).Nodup) : ((mset m k v).map Prod.fst).Nodup := by
  induction m with
  | nil => simp [mset]
  | cons p rest ih =>
      rw [List.map_cons, List.nodup_cons] at h
      by_cases hp : p.1 = k
      · subst hp
        simpa [mset, List.nodup_cons] using h
      · rw [mset]
        simp only [if_neg hp, List.map_cons, List.nodup_cons]
        refine ⟨fun hmem => ?_, ih h.2⟩
        rcases mem_keys_mset hmem with h' | h'
        · exact h.1 h'
        · exact hp h'

theorem keys_nodup_mdel {m : List (κ × α)} (k : κ)
    (h : (m.map Prod.fst).Nodup) : ((mdel m k).map Prod.fst).Nodup :=
  ((List.filter_sublist m).map Prod.fst).nodup h

theorem mem_mdel {m : List (κ × α)} {k : κ} {p : κ × α} :
    p ∈ mdel m k ↔ p ∈ m ∧ p.1 ≠ k := by
  simp [mdel, List.mem_filter]

theorem mget_foldl_mdel (ks : List κ) (m : List (κ × α)) (k : κ) :
    mget (ks.foldl (fun acc x => mdel acc x) m) k =
      if k ∈ ks then none else mget m k := by
  induction ks generalizing m with
  | nil => simp
  | cons a rest ih =>
      simp only [List.foldl_cons]
      rw [ih]
      by_cases hk : k = a
      · subst hk
        simp [mget_mdel_self]
      · by_cases hr : k ∈ rest <;> simp [hk, hr, mget_mdel_ne m hk]

end MapLemmas

/-! Lemmas about the IntelligentCache operations. -/

theorem get_miss_no_entry (c : CacheState) (fs : FS) (filePath : String)
    (h : (IntelligentCache.get c fs filePath).2 = none) :
    mget (IntelligentCache.get c fs filePath).1.files filePath = none := by
  unfold IntelligentCache.get at *
  cases hm : mget c.files filePath with
  | none => simp [hm, *]
  | some cached =>
      cases hf : fs filePath with
      | none => simp [hm, hf, mget_mdel_self]
      | some mtime =>
          by_cases hlt : cached.lastModified < mtime
          · simp [hm, hf, hlt, mget_mdel_self]
          · simp [hm, hf, hlt] at h

theorem get_dependencies_eq (c : CacheState) (fs : FS) (filePath : String) :
    (IntelligentCache.get c fs filePath).1.dependencies = c.dependencies := by
  unfold IntelligentCache.get
  cases hm : mget c.files filePath with
  | none => rfl
  | some cached =>
      cases hf : fs filePath with
      | none => rfl
      | some mtime => by_cases hlt : cached.lastModified < mtime <;> simp [hlt]

theorem get_persistCount_eq (c : CacheState) (fs : FS) (filePath : String) :
    (IntelligentCache.get c fs filePath).1.persistCount = c.persistCount := by
  unfold IntelligentCache.get
  cases hm : mget c.files filePath with
  | none => rfl
  | some cached =>
      cases hf : fs filePath with
      | none => rfl
      | some mtime => by_cases hlt : cached.lastModified < mtime <;> simp [hlt]

/-- Scanning the dependency table finds exactly the files whose stored
dependency list contains the given path, provided the table keys are
unique (the Map invariant). -/
theorem mem_dependents_iff {m : List (String × List String)} {y f : String}
    (h : (m.map Prod.fst).Nodup) :
    f ∈ (m.filter (fun p => decide (y ∈ p.2))).map Prod.fst ↔
      y ∈ (mget m f).getD [] := by
  induction m with
  | nil => simp [mget]
  | cons p rest ih =>
      rw [List.map_cons, List.nodup_cons] at h
      obtain ⟨k, ds⟩ := p
      by_cases hy : y ∈ ds
      · by_cases hk : k = f
        · subst hk
          simp [List.filter_cons, hy, mget]
        · have hk' : ¬ f = k := fun h' => hk h'.symm
          simp [List.filter_cons, hy, mget, hk, hk', ih h.2]
      · by_cases hk : k = f
        · subst hk
          have hnot : k ∉ (rest.filter (fun p => decide (y ∈ p.2))).map Prod.fst := by
            intro hmem
            exact h.1 (((List.filter_sublist rest).map Prod.fst).subset hmem)
          simp [List.filter_cons, hy, mget, hnot]
        · simp [List.filter_cons, hy, mget, hk, ih h.2]

/-- C3: for every file y, invalidateFile removes the entry for y and, by
scanning the dependency map, the entry of every file whose stored
dependency set contains y, and keeps every other entry — in particular
a file whose dependency set contains an evicted dependent but not y
itself keeps its entry, so the fan-out is single-hop only. Hypothesis:
the dependency table has no duplicate keys (a JavaScript Map invariant). -/
theorem invalidateFile_single_hop (c : CacheState) (y f : String)
    (hnd : (c.dependencies.map Prod.fst).Nodup) :
    mget (IntelligentCache.invalidateFile c y).files f =
      if f = y ∨ y ∈ (mget c.dependencies f).getD [] then none
      else mget c.files f := by
  unfold IntelligentCache.invalidateFile IntelligentCache.persistCache
    IntelligentCache.findDependents
  dsimp only
  rw [mget_foldl_mdel]
  have hdep := mem_dependents_iff (m := c.dependencies) (y := y) (f := f) hnd
  by_cases h2 : y ∈ (mget c.dependencies f).getD []
  · rw [if_pos (hdep.mpr h2), if_pos (Or.inr h2)]
  · have hnotdep : ¬ f ∈ (c.dependencies.filter (fun p => decide (y ∈ p.2))).map Prod.fst :=
      fun hm => h2 (hdep.mp hm)
    rw [if_neg hnotdep]
    by_cases h1 : f = y
    · rw [if_pos (Or.inl h1), h1, mget_mdel_self]
    · rw [if_neg (by simp [h1, h2]), mget_mdel_ne c.files h1]

/-- Witness for C3 on the cache cacheC3: invalidating /p/y.py evicts both
/p/y.py itself and its dependent /p/x.py, while /p/z.py — which depends
on /p/x.py but not on /p/y.py — keeps its entry. -/
theorem invalidateFile_single_hop_w :
    mget (IntelligentCache.invalidateFile cacheC3 "/p/y.py").files "/p/y.py" = none ∧
    mget (IntelligentCache.invalidateFile cacheC3 "/p/y.py").files "/p/x.py" = none ∧
    mget (IntelligentCache.invalidateFile cacheC3 "/p/y.py").files "/p/z.py" =
      some ⟨[], 10⟩ := by
  refine ⟨?_, ?_, ?_⟩
  · exact (invalidateFile_single_hop cacheC3 "/p/y.py" "/p/y.py" (by decide)).trans
      (by decide)
  · exact (invalidateFile_single_hop cacheC3 "/p/y.py" "/p/x.py" (by decide)).trans
      (by decide)
  · exact (invalidateFile_single_hop cacheC3 "/p/y.py" "/p/z.py" (by decide)).trans
      (by decide)

/-- C10: when the file does not exist on disk — the statSync call inside
set fails — the set call is a silent no-op: the returned ProjectIndex is
the input one (no entry written or replaced, the dependency map and
lastScan untouched, no snapshot persisted), and no error reaches the
caller since set is total. -/
theorem cache_set_missing_file_noop (c : CacheState) (fs : FS)
    (filePath : String) (overrides : List OverrideInfo)
    (h : fs filePath = none) :
    IntelligentCache.set c fs filePath overrides = c := by
  simp [IntelligentCache.set, h]

/-- Witness for C10: setting a result for a path absent from the file
system leaves the concrete cache cacheC3 unchanged. -/
theorem cache_set_missing_file_noop_w :
    IntelligentCache.set cacheC3 fsA "/p/missing.py" [normalizeRaw rawDogSpeak] =
      cacheC3 :=
  cache_set_missing_file_noop cacheC3 fsA "/p/missing.py"
    [normalizeRaw rawDogSpeak] (by decide)

theorem get_eval_none (c : CacheState) (fs : FS) (f : String)
    (hm : mget c.files f = none) :
    IntelligentCache.get c fs f = (c, none) := by
  unfold IntelligentCache.get
  rw [hm]

theorem get_eval_gone (c : CacheState) (fs : FS) (f : String) (e : FileEntry)
    (hm : mget c.files f = some e) (hf : fs f = none) :
    IntelligentCache.get c fs f = ({ c with files := mdel c.files f }, none) := by
  unfold IntelligentCache.get
  rw [hm, hf]

theorem get_eval_stale (c : CacheState) (fs : FS) (f : String) (e : FileEntry)
    (mtime : Nat) (hm : mget c.files f = some e) (hf : fs f = some mtime)
    (hlt : e.lastModified < mtime) :
    IntelligentCache.get c fs f = ({ c with files := mdel c.files f }, none) := by
  unfold IntelligentCache.get
  rw [hm, hf]
  simp [hlt]

theorem get_eval_hit (c : CacheState) (fs : FS) (f : String) (e : FileEntry)
    (mtime : Nat) (hm : mget c.files f = some e) (hf : fs f = some mtime)
    (hlt : ¬ e.lastModified < mtime) :
    IntelligentCache.get c fs f = (c, some e.overrides) := by
  unfold IntelligentCache.get
  rw [hm, hf]
  simp [hlt]

theorem get_hit_eq (c : CacheState) (fs : FS) (f : String)
    (ov : List OverrideInfo)
    (h : (IntelligentCache.get c fs f).2 = some ov) :
    IntelligentCache.get c fs f = (c, some ov) := by
  cases hm : mget c.files f with
  | none =>
      rw [get_eval_none c fs f hm] at h
      exact Option.noConfusion h
  | some cached =>
      cases hf : fs f with
      | none =>
          rw [get_eval_gone c fs f cached hm hf] at h
          exact Option.noConfusion h
      | some mtime =>
          by_cases hlt : cached.lastModified < mtime
          · rw [get_eval_stale c fs f cached mtime hm hf hlt] at h
            exact Option.noConfusion h
          · rw [get_eval_hit c fs f cached mtime hm hf hlt] at h ⊢
            rw [Option.some.inj h]

theorem setDependencies_files (c : CacheState) (f : String)
    (deps : List String) :
    (IntelligentCache.setDependencies c f deps).files = c.files := rfl

theorem set_files (c : CacheState) (fs : FS) (f : String)
    (ov : List OverrideInfo) (t : Nat) (hf : fs f = some t) :
    (IntelligentCache.set c fs f ov).files = mset c.files f ⟨ov, t⟩ := by
  simp [IntelligentCache.set, hf, IntelligentCache.persistCache]

/-- C4: for every file with a cache entry, get returns the stored
relations exactly when the file still exists and its current modification
time is not greater than the entry's stored lastModified; when the mtime
is greater, or the stat fails because the file is gone, the entry is
evicted and a miss is reported. Consequently two facade analyzeFile calls
for the same file with no file-system change in between return the
identical relation sequence and the second call performs no worker
interaction. -/
theorem cache_get_mtime_freshness :
    (∀ (c : CacheState) (fs : FS) (f : String) (e : FileEntry),
      mget c.files f = some e →
        ((IntelligentCache.get c fs f).2 = some e.overrides ↔
          ∃ t, fs f = some t ∧ t ≤ e.lastModified) ∧
        (∀ t, fs f = some t → e.lastModified < t →
          (IntelligentCache.get c fs f).2 = none ∧
          mget (IntelligentCache.get c fs f).1.files f = none) ∧
        (fs f = none →
          (IntelligentCache.get c fs f).2 = none ∧
          mget (IntelligentCache.get c fs f).1.files f = none)) ∧
    (∀ (s : AnalyzerState) (fs : FS) (f : String) (raw : List RawOverride)
        (t : Nat) (w2 : Except String (List RawOverride)),
      fs f = some t →
        (PythonOverrideAnalyzer.analyzeFile
            (PythonOverrideAnalyzer.analyzeFile s fs f (Except.ok raw)).state
            fs f w2).relations =
          (PythonOverrideAnalyzer.analyzeFile s fs f (Except.ok raw)).relations ∧
        (PythonOverrideAnalyzer.analyzeFile
            (PythonOverrideAnalyzer.analyzeFile s fs f (Except.ok raw)).state
            fs f w2).workerCalled = false) := by
  constructor
  · intro c fs f e he
    refine ⟨?_, ?_, ?_⟩
    · cases hf : fs f with
      | none =>
          apply iff_of_false
          · rw [get_eval_gone c fs f e he hf]
            exact fun hcon => Option.noConfusion hcon
          · rintro ⟨t', ht', _⟩
            exact Option.noConfusion ht'
      | some t =>
          by_cases hlt : e.lastModified < t
          · apply iff_of_false
            · rw [get_eval_stale c fs f e t he hf hlt]
              exact fun hcon => Option.noConfusion hcon
            · rintro ⟨t', ht', hle⟩
              have := Option.some.inj ht'
              omega
          · apply iff_of_true
            · rw [get_eval_hit c fs f e t he hf hlt]
            · exact ⟨t, rfl, Nat.not_lt.mp hlt⟩
    · intro t hf hlt
      rw [get_eval_stale c fs f e t he hf hlt]
      exact ⟨rfl, mget_mdel_self c.files f⟩
    · intro hf
      rw [get_eval_gone c fs f e he hf]
      exact ⟨rfl, mget_mdel_self c.files f⟩
  · intro s fs f raw t w2 hf
    cases hr : (IntelligentCache.get s.cache fs f).2 with
    | some cached =>
        have hget := get_hit_eq s.cache fs f cached hr
        have h1 : PythonOverrideAnalyzer.analyzeFile s fs f (Except.ok raw) =
            ⟨⟨s.cache, s.isInitialized⟩, cached, false, false⟩ := by
          unfold PythonOverrideAnalyzer.analyzeFile
          rw [hget]
        have h2 : PythonOverrideAnalyzer.analyzeFile s fs f w2 =
            ⟨⟨s.cache, s.isInitialized⟩, cached, false, false⟩ := by
          unfold PythonOverrideAnalyzer.analyzeFile
          rw [hget]
        rw [h1]
        exact ⟨by rw [show (⟨s.cache, s.isInitialized⟩ : AnalyzerState) = s from rfl, h2],
          by rw [show (⟨s.cache, s.isInitialized⟩ : AnalyzerState) = s from rfl, h2]⟩
    | none =>
        set c1 := (IntelligentCache.get s.cache fs f).1 with hc1
        have hget : IntelligentCache.get s.cache fs f = (c1, none) := by
          rw [hc1, ← hr]
        have h1 : PythonOverrideAnalyzer.analyzeFile s fs f (Except.ok raw) =
            ⟨⟨IntelligentCache.setDependencies
                (IntelligentCache.set c1 fs f (raw.map normalizeRaw)) f
                (depsOfOverrides (raw.map normalizeRaw)), true⟩,
              raw.map normalizeRaw, true, false⟩ := by
          unfold PythonOverrideAnalyzer.analyzeFile
          rw [hget]
        set c3 := IntelligentCache.setDependencies
          (IntelligentCache.set c1 fs f (raw.map normalizeRaw)) f
          (depsOfOverrides (raw.map normalizeRaw)) with hc3
        have hfiles : mget c3.files f = some ⟨raw.map normalizeRaw, t⟩ := by
          rw [hc3, setDependencies_files, set_files c1 fs f _ t hf, mget_mset_self]
        have hget3 : IntelligentCache.get c3 fs f = (c3, some (raw.map normalizeRaw)) :=
          get_eval_hit c3 fs f ⟨raw.map normalizeRaw, t⟩ t hfiles hf (lt_irrefl t)
        have h2 : PythonOverrideAnalyzer.analyzeFile ⟨c3, true⟩ fs f w2 =
            ⟨⟨c3, true⟩, raw.map normalizeRaw, false, false⟩ := by
          unfold PythonOverrideAnalyzer.analyzeFile
          rw [show (⟨c3, true⟩ : AnalyzerState).cache = c3 from rfl, hget3]
        constructor
        · rw [h1]
          rw [show (⟨⟨c3, true⟩, raw.map normalizeRaw, true, false⟩ :
              AnalyzeFileResult).state = ⟨c3, true⟩ from rfl, h2]
        · rw [h1]
          rw [show (⟨⟨c3, true⟩, raw.map normalizeRaw, true, false⟩ :
              AnalyzeFileResult).state = ⟨c3, true⟩ from rfl, h2]

/-- Witness for C4: a hit on the concrete cache cacheA (mtime 5, entry
stamped 5); and, starting from the empty cache, a first facade call that
stores the Dog.speak relation followed by a second call that returns the
identical sequence without consulting the worker. -/
theorem cache_get_mtime_freshness_w :
    (IntelligentCache.get cacheA fsA "/p/a.py").2 =
      some (FileEntry.mk [normalizeRaw rawDogSpeak] 5).overrides ∧
    (PythonOverrideAnalyzer.analyzeFile
        (PythonOverrideAnalyzer.analyzeFile ⟨cache0, false⟩ fsA "/p/a.py"
          (Except.ok [rawDogSpeak])).state
        fsA "/p/a.py" (Except.error "boom")).relations =
      (PythonOverrideAnalyzer.analyzeFile ⟨cache0, false⟩ fsA "/p/a.py"
        (Except.ok [rawDogSpeak])).relations ∧
    (PythonOverrideAnalyzer.analyzeFile
        (PythonOverrideAnalyzer.analyzeFile ⟨cache0, false⟩ fsA "/p/a.py"
          (Except.ok [rawDogSpeak])).state
        fsA "/p/a.py" (Except.error "boom")).workerCalled = false := by
  have h1 := cache_get_mtime_freshness.1 cacheA fsA "/p/a.py"
    ⟨[normalizeRaw rawDogSpeak], 5⟩ (by decide)
  have h2 := cache_get_mtime_freshness.2 ⟨cache0, false⟩ fsA "/p/a.py"
    [rawDogSpeak] 5 (Except.error "boom") (by decide)
  exact ⟨h1.1.mpr ⟨5, by decide, by decide⟩, h2.1, h2.2⟩

/-- C5: for every failure with which the worker link promise settles
during a facade analyzeFile call (timeout, process terminated, response
error, write error), the facade returns the empty relation sequence
instead of propagating the error, triggers a best-effort worker restart,
and writes neither a cache entry nor a dependency set for the file: after
the call the file has no entry, the dependency table is untouched and no
snapshot was persisted. -/
theorem analyzeFile_failure_returns_empty (s : AnalyzerState) (fs : FS)
    (f : String) (msg : String)
    (h : (IntelligentCache.get s.cache fs f).2 = none) :
    (PythonOverrideAnalyzer.analyzeFile s fs f (Except.error msg)).relations = [] ∧
    (PythonOverrideAnalyzer.analyzeFile s fs f (Except.error msg)).restartTriggered = true ∧
    mget (PythonOverrideAnalyzer.analyzeFile s fs f
      (Except.error msg)).state.cache.files f = none ∧
    (PythonOverrideAnalyzer.analyzeFile s fs f
      (Except.error msg)).state.cache.dependencies = s.cache.dependencies ∧
    (PythonOverrideAnalyzer.analyzeFile s fs f
      (Except.error msg)).state.cache.persistCount = s.cache.persistCount := by
  have hget : IntelligentCache.get s.cache fs f =
      ((IntelligentCache.get s.cache fs f).1, none) := by
    rw [← h]
  have h1 : PythonOverrideAnalyzer.analyzeFile s fs f (Except.error msg) =
      ⟨⟨(IntelligentCache.get s.cache fs f).1, true⟩, [], true, true⟩ := by
    unfold PythonOverrideAnalyzer.analyzeFile
    rw [hget]
  rw [h1]
  exact ⟨rfl, rfl, get_miss_no_entry s.cache fs f h,
    get_dependencies_eq s.cache fs f, get_persistCount_eq s.cache fs f⟩

/-- Witness for C5: a timed-out analysis of /p/a.py against the empty
cache returns the empty sequence, triggers a restart and leaves no entry. -/
theorem analyzeFile_failure_returns_empty_w :
    (PythonOverrideAnalyzer.analyzeFile ⟨cache0, true⟩ fsA "/p/a.py"
      (Except.error "Analysis timeout for /p/a.py")).relations = [] ∧
    (PythonOverrideAnalyzer.analyzeFile ⟨cache0, true⟩ fsA "/p/a.py"
      (Except.error "Analysis timeout for /p/a.py")).restartTriggered = true ∧
    mget (PythonOverrideAnalyzer.analyzeFile ⟨cache0, true⟩ fsA "/p/a.py"
      (Except.error "Analysis timeout for /p/a.py")).state.cache.files
      "/p/a.py" = none := by
  have h := analyzeFile_failure_returns_empty ⟨cache0, true⟩ fsA "/p/a.py"
    "Analysis timeout for /p/a.py" (by decide)
  exact ⟨h.1, h.2.1, h.2.2.1⟩

/-! Lemmas about the PythonProcessManager machine. -/

theorem sendRequest_fields (s : MgrState) (f : String) :
    (sendRequest s f).readyResolved = s.readyResolved ∧
    (sendRequest s f).isReady = s.isReady ∧
    (sendRequest s f).waiters = s.waiters ∧
    (sendRequest s f).curGenReady = s.curGenReady ∧
    (sendRequest s f).procAlive = s.procAlive := by
  unfold sendRequest
  dsimp only
  by_cases h : s.procAlive = true <;> simp [h]

theorem foldl_sendRequest_fields (l : List String) (s : MgrState) :
    ((l.foldl sendRequest s).readyResolved = s.readyResolved) ∧
    ((l.foldl sendRequest s).isReady = s.isReady) ∧
    ((l.foldl sendRequest s).waiters = s.waiters) := by
  induction l generalizing s with
  | nil => exact ⟨rfl, rfl, rfl⟩
  | cons a rest ih =>
      simp only [List.foldl_cons]
      have h1 := sendRequest_fields s a
      have h2 := ih (sendRequest s a)
      exact ⟨h2.1.trans h1.1, h2.2.1.trans h1.2.1, h2.2.2.trans h1.2.2.1⟩

theorem mstep_ready_fields (s : MgrState) :
    (mstep s MEvent.ready).readyResolved = true ∧
    (mstep s MEvent.ready).isReady = true ∧
    (mstep s MEvent.ready).waiters = [] := by
  unfold mstep
  dsimp only
  exact ⟨(foldl_sendRequest_fields s.waiters _).1,
    (foldl_sendRequest_fields s.waiters _).2.1,
    (foldl_sendRequest_fields s.waiters _).2.2⟩

theorem mstep_inv (s : MgrState) (e : MEvent) (h : MgrInv s) :
    MgrInv (mstep s e) := by
  cases e with
  | start =>
      unfold mstep
      by_cases hp : s.procAlive = true
      · simpa [hp] using h
      · simpa [hp, MgrInv] using h
  | ready =>
      refine ⟨fun _ => (mstep_ready_fields s).1, fun hcon => ?_⟩
      rw [(mstep_ready_fields s).1] at hcon
      exact Bool.noConfusion hcon
  | line id err result =>
      cases hm : mget s.pending id with
      | none => simpa [mstep, hm] using h
      | some fp =>
          cases err with
          | none => simpa [mstep, hm, MgrInv] using h
          | some m =>
              by_cases hme : m = ""
              · simpa [mstep, hm, hme, MgrInv] using h
              · simpa [mstep, hm, hme, MgrInv] using h
  | procDied =>
      refine ⟨fun hcon => ?_, fun hrr => ?_⟩
      · simp [mstep] at hcon
      · exact h.2 hrr
  | analyze f =>
      unfold mstep
      dsimp only
      by_cases hr : s.isReady = true
      · rw [if_pos hr]
        refine ⟨fun hx => ?_, fun hcon => ?_⟩
        · rw [(sendRequest_fields s f).1]
          rw [(sendRequest_fields s f).2.1] at hx
          exact h.1 hx
        · rw [(sendRequest_fields s f).1] at hcon
          rw [h.1 hr] at hcon
          exact Bool.noConfusion hcon
      · rw [if_neg hr]
        by_cases hrr : s.readyResolved = true
        · rw [if_pos hrr]
          refine ⟨fun hx => ?_, fun hcon => ?_⟩
          · rw [(sendRequest_fields s f).1]
            rw [(sendRequest_fields s f).2.1] at hx
            exact h.1 hx
          · rw [(sendRequest_fields s f).1] at hcon
            rw [hrr] at hcon
            exact Bool.noConfusion hcon
        · rw [if_neg hrr]
          exact ⟨fun hx => h.1 hx, fun hc => h.2 hc⟩
  | timerFire id =>
      cases hm : mget s.pending id with
      | none => simpa [mstep, hm] using h
      | some fp => simpa [mstep, hm, MgrInv] using h

theorem foldl_mstep_inv :
    ∀ (tr : List MEvent) (s : MgrState), MgrInv s → MgrInv (tr.foldl mstep s)
  | [], _, hs => hs
  | e :: rest, s, hs => foldl_mstep_inv rest (mstep s e) (mstep_inv s e hs)

theorem runM_inv (tr : List MEvent) : MgrInv (runM tr) :=
  foldl_mstep_inv tr initMgr ⟨fun hx => Bool.noConfusion hx, fun _ => rfl⟩

/-- C1 (amended): every analyzeFile call issued before the worker has
ever emitted its readiness signal queues on the shared readiness future:
before the first readiness signal no request line has been written, such
a call appends itself to the waiters of the future without sending
anything, and the readiness signal releases all waiters. The isReady flag
always implies the future has resolved, but the converse fails after a
crash: cleanup resets only the flag while the future, created once in the
constructor, stays resolved, so a call issued after a crash-and-restart
proceeds without waiting for the new process's readiness signal (see the
counterexample). -/
theorem requests_before_first_readiness_are_queued (tr : List MEvent)
    (f : String) :
    ((runM tr).readyResolved = false →
      (runM tr).sent = [] ∧
      (mstep (runM tr) (MEvent.analyze f)).sent = (runM tr).sent ∧
      (mstep (runM tr) (MEvent.analyze f)).waiters = (runM tr).waiters ++ [f]) ∧
    ((runM tr).isReady = true → (runM tr).readyResolved = true) ∧
    (mstep (runM tr) MEvent.ready).waiters = [] := by
  have h := runM_inv tr
  refine ⟨fun hrr => ?_, h.1, (mstep_ready_fields (runM tr)).2.2⟩
  have hnr : ¬ (runM tr).isReady = true := fun hx => by
    rw [h.1 hx] at hrr
    exact Bool.noConfusion hrr
  have hnrr : ¬ (runM tr).readyResolved = true := fun hx => by
    rw [hx] at hrr
    exact Bool.noConfusion hrr
  have hstep : mstep (runM tr) (MEvent.analyze f) =
      { runM tr with waiters := (runM tr).waiters ++ [f] } := by
    unfold mstep
    dsimp only
    rw [if_neg hnr, if_neg hnrr]
  rw [hstep]
  exact ⟨h.2 hrr, rfl, rfl⟩

/-- Witness for the amended C1: with the worker spawned but not yet
ready, an analyzeFile call writes nothing and queues on the readiness
future. -/
theorem requests_before_first_readiness_are_queued_w :
    (mstep (runM [MEvent.start]) (MEvent.analyze "/p/a.py")).sent = [] ∧
    (mstep (runM [MEvent.start]) (MEvent.analyze "/p/a.py")).waiters =
      ["/p/a.py"] := by
  have h := (requests_before_first_readiness_are_queued [MEvent.start]
    "/p/a.py").1 (by decide)
  refine ⟨?_, ?_⟩
  · rw [h.2.1]
    exact h.1
  · exact h.2.2.trans (by decide)

/-- Counterexample to C1 as stated: the worker becomes ready, crashes and
is restarted; an analyzeFile call issued then has its request line
written immediately — the send record shows genReadyAtSend false while
isReady and curGenReady are false — instead of waiting for the new
process's readiness signal. -/
theorem restart_does_not_wait_for_new_readiness :
    (runM [MEvent.start, MEvent.ready, MEvent.procDied, MEvent.start,
        MEvent.analyze "/p/a.py"]).sent = [⟨1, "/p/a.py", false⟩] ∧
    (runM [MEvent.start, MEvent.ready, MEvent.procDied, MEvent.start,
        MEvent.analyze "/p/a.py"]).isReady = false ∧
    (runM [MEvent.start, MEvent.ready, MEvent.procDied, MEvent.start,
        MEvent.analyze "/p/a.py"]).curGenReady = false := by
  decide

/-- C2: when the worker process exits or errors, cleanup fails every
currently pending request with the process-terminated error, the pending
table becomes empty, readiness is reset to not-ready and the process
reference is cleared; no pending request is left unresolved. -/
theorem process_exit_fails_all_pending (s : MgrState) :
    (mstep s MEvent.procDied).pending = [] ∧
    (mstep s MEvent.procDied).isReady = false ∧
    (mstep s MEvent.procDied).procAlive = false ∧
    ∀ p ∈ s.pending, (p.1, MOutcome.terminated) ∈ (mstep s MEvent.procDied).settled := by
  refine ⟨rfl, rfl, rfl, fun p hp => ?_⟩
  show (p.1, MOutcome.terminated) ∈
    s.settled ++ s.pending.map (fun q => (q.1, MOutcome.terminated))
  exact List.mem_append_right _ (List.mem_map_of_mem _ hp)

/-- Witness for C2: the exit of the worker while req_1, req_2 and req_3
are pending empties the table and settles all three with the
process-terminated failure. -/
theorem process_exit_fails_all_pending_w :
    (mstep mgrThreePending MEvent.procDied).pending = [] ∧
    (1, MOutcome.terminated) ∈ (mstep mgrThreePending MEvent.procDied).settled ∧
    (2, MOutcome.terminated) ∈ (mstep mgrThreePending MEvent.procDied).settled ∧
    (3, MOutcome.terminated) ∈ (mstep mgrThreePending MEvent.procDied).settled := by
  have h := process_exit_fails_all_pending mgrThreePending
  exact ⟨h.1, h.2.2.2 (1, "/p/f1.py") (by decide),
    h.2.2.2 (2, "/p/f2.py") (by decide), h.2.2.2 (3, "/p/f3.py") (by decide)⟩

/-- C6: when the timer of a pending request fires, the pending entry for
its id is removed and the caller's promise is rejected with the timeout
error naming the file; a response bearing that id arriving afterwards
matches no pending entry and leaves the state entirely unchanged. -/
theorem timeout_removes_pending_and_ignores_late_response (s : MgrState)
    (id : Nat) (fp : String) (h : mget s.pending id = some fp) :
    mget (mstep s (MEvent.timerFire id)).pending id = none ∧
    (id, MOutcome.timeout fp) ∈ (mstep s (MEvent.timerFire id)).settled ∧
    (∀ (err : Option String) (result : Option (List RawOverride)),
      mstep (mstep s (MEvent.timerFire id)) (MEvent.line id err result) =
        mstep s (MEvent.timerFire id)) := by
  have hstep : mstep s (MEvent.timerFire id) =
      { s with
        pending := mdel s.pending id
        settled := s.settled ++ [(id, MOutcome.timeout fp)] } := by
    unfold mstep
    dsimp only
    rw [h]
  refine ⟨?_, ?_, ?_⟩
  · rw [hstep]
    exact mget_mdel_self s.pending id
  · rw [hstep]
    exact List.mem_append_right _ (List.mem_singleton.mpr rfl)
  · intro err result
    have hnone : mget (mstep s (MEvent.timerFire id)).pending id = none := by
      rw [hstep]
      exact mget_mdel_self s.pending id
    revert hnone
    generalize mstep s (MEvent.timerFire id) = s2
    intro hnone
    unfold mstep
    dsimp only
    rw [hnone]

/-- Witness for C6: the timer of pending request req_7 fires; the entry
is gone, the timeout outcome names the file, and a late response for
req_7 changes nothing. -/
theorem timeout_removes_pending_and_ignores_late_response_w :
    mget (mstep mgrOnePending (MEvent.timerFire 7)).pending 7 = none ∧
    (7, MOutcome.timeout "/p/a.py") ∈
      (mstep mgrOnePending (MEvent.timerFire 7)).settled ∧
    mstep (mstep mgrOnePending (MEvent.timerFire 7))
        (MEvent.line 7 none (some [rawDogSpeak])) =
      mstep mgrOnePending (MEvent.timerFire 7) := by
  have h := timeout_removes_pending_and_ignores_late_response mgrOnePending 7
    "/p/a.py" (by decide)
  exact ⟨h.1, h.2.1, h.2.2 none (some [rawDogSpeak])⟩

/-- C7: worker responses are matched to pending requests strictly by
correlation id, independent of send order: a response whose id matches no
pending entry is ignored outright — the whole state is unchanged — and
for every other id the pending entry after the response is exactly what
it was before. -/
theorem responses_matched_by_id (s : MgrState) (id : Nat)
    (err : Option String) (result : Option (List RawOverride)) :
    (mget s.pending id = none → mstep s (MEvent.line id err result) = s) ∧
    (∀ id2, id2 ≠ id →
      mget (mstep s (MEvent.line id err result)).pending id2 =
        mget s.pending id2) := by
  constructor
  · intro hnone
    unfold mstep
    dsimp only
    rw [hnone]
  · intro id2 hne
    cases hm : mget s.pending id with
    | none =>
        rw [show mstep s (MEvent.line id err result) = s from by
          unfold mstep
          dsimp only
          rw [hm]]
    | some fp =>
        have hpend : (mstep s (MEvent.line id err result)).pending =
            mdel s.pending id := by
          unfold mstep
          dsimp only
          rw [hm]
          cases err with
          | none => rfl
          | some m =>
              by_cases hme : m = "" <;> simp [hme]
        rw [hpend]
        exact mget_mdel_ne s.pending hne

/-- Witness for C7: with req_1 and req_2 pending, a response for the
unknown id 99 leaves the state unchanged and in particular req_1 is
still pending. -/
theorem responses_matched_by_id_w :
    mstep mgrTwoPending (MEvent.line 99 none none) = mgrTwoPending ∧
    mget (mstep mgrTwoPending (MEvent.line 99 none none)).pending 1 =
      mget mgrTwoPending.pending 1 := by
  have h := responses_matched_by_id mgrTwoPending 99 none none
  exact ⟨h.1 (by decide), h.2 1 (by decide)⟩

/-! Lemmas about the debounce scheduler machine. -/

theorem DWF_schedule {s : DebounceState} (h : DWF s) (f : String) :
    DWF (scheduleAnalysis s f) := by
  unfold scheduleAnalysis
  dsimp only
  refine ⟨?_, ?_, ?_, ?_, ?_⟩
  · exact keys_nodup_mset f s.nextTimer h.keys_nodup
  · intro p hp
    rcases mem_mset hp with hmem | heq
    · exact Nat.lt_succ_of_lt (h.vals_lt p hmem)
    · rw [heq]
      exact Nat.lt_succ_self _
  · intro a b tq ha hb
    by_cases haf : a = f
    · by_cases hbf : b = f
      · rw [haf, hbf]
      · rw [haf, mget_mset_self] at ha
        rw [mget_mset_ne s.queue s.nextTimer hbf] at hb
        rw [← Option.some.inj ha] at hb
        exact absurd (h.vals_lt (b, s.nextTimer) (mget_mem hb)) (lt_irrefl _)
    · by_cases hbf : b = f
      · rw [hbf, mget_mset_self] at hb
        rw [mget_mset_ne s.queue s.nextTimer haf] at ha
        rw [← Option.some.inj hb] at ha
        exact absurd (h.vals_lt (a, s.nextTimer) (mget_mem ha)) (lt_irrefl _)
      · rw [mget_mset_ne s.queue s.nextTimer haf] at ha
        rw [mget_mset_ne s.queue s.nextTimer hbf] at hb
        exact h.vals_inj a b tq ha hb
  · intro t a
    cases hq : mget s.queue f with
    | none =>
        constructor
        · intro hmem
          rcases List.mem_append.mp hmem with hmem1 | hmem2
          · have hq' := (h.act_iff t a).mp hmem1
            have haf : a ≠ f := fun he => by
              rw [he, hq] at hq'
              exact Option.noConfusion hq'
            rw [mget_mset_ne s.queue s.nextTimer haf]
            exact hq'
          · cases List.mem_singleton.mp hmem2
            rw [mget_mset_self]
        · intro hget
          by_cases haf : a = f
          · subst haf
            rw [mget_mset_self] at hget
            rw [← Option.some.inj hget]
            exact List.mem_append_right _ (List.mem_singleton_self _)
          · rw [mget_mset_ne s.queue s.nextTimer haf] at hget
            exact List.mem_append_left _ ((h.act_iff t a).mpr hget)
    | some t0 =>
        constructor
        · intro hmem
          rcases List.mem_append.mp hmem with hmem1 | hmem2
          · have hmf := List.mem_filter.mp hmem1
            have hq' := (h.act_iff t a).mp hmf.1
            have haf : a ≠ f := fun he => by
              rw [he, hq] at hq'
              exact (of_decide_eq_true hmf.2) (Option.some.inj hq').symm
            rw [mget_mset_ne s.queue s.nextTimer haf]
            exact hq'
          · cases List.mem_singleton.mp hmem2
            rw [mget_mset_self]
        · intro hget
          by_cases haf : a = f
          · subst haf
            rw [mget_mset_self] at hget
            rw [← Option.some.inj hget]
            exact List.mem_append_right _ (List.mem_singleton_self _)
          · rw [mget_mset_ne s.queue s.nextTimer haf] at hget
            have hmem := (h.act_iff t a).mpr hget
            have ht0 : t ≠ t0 := fun he =>
              haf (h.vals_inj a f t0 (he ▸ hget) hq)
            exact List.mem_append_left _
              (List.mem_filter.mpr ⟨hmem, decide_eq_true ht0⟩)
  · cases hq : mget s.queue f with
    | none =>
        refine List.nodup_append.mpr ⟨h.act_nodup, List.nodup_singleton _, ?_⟩
        intro p hp1 hp2
        cases List.mem_singleton.mp hp2
        have := (h.act_iff s.nextTimer f).mp hp1
        exact absurd (h.vals_lt (f, s.nextTimer) (mget_mem this)) (lt_irrefl _)
    | some t0 =>
        refine List.nodup_append.mpr ⟨h.act_nodup.filter _, List.nodup_singleton _, ?_⟩
        intro p hp1 hp2
        cases List.mem_singleton.mp hp2
        have := (h.act_iff s.nextTimer f).mp (List.mem_filter.mp hp1).1
        exact absurd (h.vals_lt (f, s.nextTimer) (mget_mem this)) (lt_irrefl _)

theorem DWF_removePair {s : DebounceState} (h : DWF s) (f0 : String) (t : Nat)
    (hq : mget s.queue f0 = some t) (inv2 : List (Nat × String)) :
    DWF { queue := mdel s.queue f0
          nextTimer := s.nextTimer
          active := s.active.filter (fun q => decide (q.1 ≠ t))
          invocations := inv2 } := by
  refine ⟨keys_nodup_mdel f0 h.keys_nodup, ?_, ?_, ?_, h.act_nodup.filter _⟩
  · intro p hp
    exact h.vals_lt p (mem_mdel.mp hp).1
  · intro a b tq ha hb
    by_cases haf : a = f0
    · rw [haf, mget_mdel_self] at ha
      exact Option.noConfusion ha
    · by_cases hbf : b = f0
      · rw [hbf, mget_mdel_self] at hb
        exact Option.noConfusion hb
      · rw [mget_mdel_ne s.queue haf] at ha
        rw [mget_mdel_ne s.queue hbf] at hb
        exact h.vals_inj a b tq ha hb
  · intro t' a
    constructor
    · intro hmem
      have hmf := List.mem_filter.mp hmem
      have ht' : t' ≠ t := of_decide_eq_true hmf.2
      have hq' := (h.act_iff t' a).mp hmf.1
      have haf : a ≠ f0 := fun he => by
        rw [he, hq] at hq'
        exact ht' (Option.some.inj hq').symm
      rw [mget_mdel_ne s.queue haf]
      exact hq'
    · intro hget
      by_cases haf : a = f0
      · rw [haf, mget_mdel_self] at hget
        exact absurd hget (by simp)
      · rw [mget_mdel_ne s.queue haf] at hget
        have hmem := (h.act_iff t' a).mpr hget
        have ht' : t' ≠ t := fun he => haf (h.vals_inj a f0 t (he ▸ hget) hq)
        exact List.mem_filter.mpr ⟨hmem, decide_eq_true ht'⟩

theorem DWF_timerFire {s : DebounceState} (h : DWF s) (t : Nat) :
    DWF (timerFire s t) := by
  unfold timerFire
  cases hfind : s.active.find? (fun q => decide (q.1 = t)) with
  | none => exact h
  | some p =>
      have hp1 : p.1 = t := by
        have hfs := List.find?_some hfind
        simp only [decide_eq_true_eq] at hfs
        exact hfs
      have hpmem : p ∈ s.active := List.mem_of_find?_eq_some hfind
      have hqp : mget s.queue p.2 = some t := by
        rw [← hp1]
        exact (h.act_iff p.1 p.2).mp (by rw [Prod.mk.eta]; exact hpmem)
      exact DWF_removePair h p.2 t hqp _

theorem DWF_closeDocument {s : DebounceState} (h : DWF s) (f : String) :
    DWF (closeDocument s f) := by
  unfold closeDocument
  cases hq : mget s.queue f with
  | none => exact h
  | some t => exact DWF_removePair h f t hq _

theorem DWF_initD : DWF initD := by
  refine ⟨?_, ?_, ?_, ?_, ?_⟩
  · simp [initD]
  · intro p hp
    simp [initD] at hp
  · intro a b tq ha
    simp [initD, mget] at ha
  · intro t a
    simp [initD, mget]
  · simp [initD]

theorem dstep_DWF {s : DebounceState} (h : DWF s) (e : DEvent) :
    DWF (dstep s e) := by
  cases e with
  | schedule f => exact DWF_schedule h f
  | fire t => exact DWF_timerFire h t
  | close f => exact DWF_closeDocument h f

theorem foldl_dstep_DWF :
    ∀ (tr : List DEvent) (s : DebounceState), DWF s → DWF (tr.foldl dstep s)
  | [], _, hs => hs
  | e :: rest, s, hs => foldl_dstep_DWF rest (dstep s e) (dstep_DWF hs e)

theorem runD_DWF (tr : List DEvent) : DWF (runD tr) :=
  foldl_dstep_DWF tr initD DWF_initD

theorem eq_singleton_of_mem_all_eq {β : Type} {l : List β} {a : β}
    (hmem : a ∈ l) (hall : ∀ x ∈ l, x = a) (hnd : l.Nodup) : l = [a] := by
  cases l with
  | nil => cases hmem
  | cons x xs =>
      have hx : x = a := hall x (List.mem_cons_self _ _)
      have hxs : xs = [] := by
        apply List.eq_nil_iff_forall_not_mem.mpr
        intro y hy
        have hy' : y = a := hall y (List.mem_cons_of_mem _ hy)
        have hxmem : x ∈ xs := by
          rw [hx, ← hy']
          exact hy
        exact (List.nodup_cons.mp hnd).1 hxmem
      rw [hx, hxs]

theorem activeFor_eq_nil {s : DebounceState} (h : DWF s) {f : String}
    (hq : mget s.queue f = none) : activeFor s f = [] := by
  apply List.eq_nil_iff_forall_not_mem.mpr
  intro p hp
  have hmf := List.mem_filter.mp hp
  have hp2 : p.2 = f := of_decide_eq_true hmf.2
  have hmem : (p.1, p.2) ∈ s.active := by
    rw [Prod.mk.eta]
    exact hmf.1
  have := (h.act_iff p.1 p.2).mp hmem
  rw [hp2, hq] at this
  exact Option.noConfusion this

theorem activeFor_eq_single {s : DebounceState} (h : DWF s) {f : String}
    {t : Nat} (hq : mget s.queue f = some t) : activeFor s f = [(t, f)] := by
  apply eq_singleton_of_mem_all_eq
  · exact List.mem_filter.mpr ⟨(h.act_iff t f).mpr hq, decide_eq_true rfl⟩
  · intro p hp
    obtain ⟨a, b⟩ := p
    have hmf := List.mem_filter.mp hp
    have hb : b = f := of_decide_eq_true hmf.2
    have hget := (h.act_iff a b).mp hmf.1
    rw [hb, hq] at hget
    have ha : t = a := Option.some.inj hget
    rw [hb, ← ha]
  · exact h.act_nodup.filter _

theorem activeFor_length_le_one {s : DebounceState} (h : DWF s) (f : String) :
    (activeFor s f).length ≤ 1 := by
  cases hq : mget s.queue f with
  | none =>
      rw [activeFor_eq_nil h hq]
      exact Nat.zero_le 1
  | some t =>
      rw [activeFor_eq_single h hq]
      exact Nat.le_refl 1

theorem timerFire_of_active {s : DebounceState} (h : DWF s) {t : Nat}
    {f : String} (hmem : (t, f) ∈ s.active) :
    timerFire s t =
      { queue := mdel s.queue f
        nextTimer := s.nextTimer
        active := s.active.filter (fun q => decide (q.1 ≠ t))
        invocations := s.invocations ++ [(t, f)] } := by
  cases hfind : s.active.find? (fun q => decide (q.1 = t)) with
  | none =>
      exfalso
      exact List.find?_eq_none.mp hfind (t, f) hmem (decide_eq_true rfl)
  | some p =>
      have hp1 : p.1 = t := by
        have hfs := List.find?_some hfind
        simp only [decide_eq_true_eq] at hfs
        exact hfs
      have hpmem : p ∈ s.active := List.mem_of_find?_eq_some hfind
      have hqp : mget s.queue p.2 = some t := by
        rw [← hp1]
        exact (h.act_iff p.1 p.2).mp (by rw [Prod.mk.eta]; exact hpmem)
      have hqf : mget s.queue f = some t := (h.act_iff t f).mp hmem
      have hp2 : p.2 = f := h.vals_inj p.2 f t hqp hqf
      unfold timerFire
      rw [hfind]
      dsimp only
      rw [hp2]

theorem schedN_spec {s : DebounceState} (h : DWF s) (f : String) (n : Nat) :
    DWF (schedN f n s) ∧
    (schedN f n s).invocations = s.invocations ∧
    (schedN f n s).nextTimer = s.nextTimer + n ∧
    (0 < n → mget (schedN f n s).queue f = some (s.nextTimer + n - 1)) := by
  induction n with
  | zero => exact ⟨h, rfl, rfl, fun hc => absurd hc (lt_irrefl 0)⟩
  | succ n ih =>
      obtain ⟨hwf, hinv, hnt, _⟩ := ih
      refine ⟨DWF_schedule hwf f, ?_, ?_, fun _ => ?_⟩
      · show (scheduleAnalysis (schedN f n s) f).invocations = s.invocations
        rw [show (scheduleAnalysis (schedN f n s) f).invocations =
          (schedN f n s).invocations from rfl, hinv]
      · show (scheduleAnalysis (schedN f n s) f).nextTimer = s.nextTimer + (n + 1)
        rw [show (scheduleAnalysis (schedN f n s) f).nextTimer =
          (schedN f n s).nextTimer + 1 from rfl, hnt]
        omega
      · show mget (scheduleAnalysis (schedN f n s) f).queue f =
          some (s.nextTimer + (n + 1) - 1)
        rw [show (scheduleAnalysis (schedN f n s) f).queue =
          mset (schedN f n s).queue f (schedN f n s).nextTimer from rfl,
          mget_mset_self, hnt]
        congr 1

/-- C8: the scheduler keeps at most one live timer per file in every
reachable state; scheduling N trigger events for the same file within the
debounce window (no expiry in between) fires no downstream step itself
and leaves exactly one live timer for the file — the last one registered
— and when that timer fires, the downstream analysis-and-render step runs
exactly once, the timer leaves the live set and removes itself from the
pending map. -/
theorem scheduleAnalysis_debounces_to_single_invocation (tr : List DEvent)
    (f : String) (N : Nat) (hN : 0 < N) :
    (∀ g, (activeFor (runD tr) g).length ≤ 1) ∧
    (schedN f N (runD tr)).invocations = (runD tr).invocations ∧
    activeFor (schedN f N (runD tr)) f =
      [((runD tr).nextTimer + N - 1, f)] ∧
    (timerFire (schedN f N (runD tr))
        ((runD tr).nextTimer + N - 1)).invocations =
      (runD tr).invocations ++ [((runD tr).nextTimer + N - 1, f)] ∧
    activeFor (timerFire (schedN f N (runD tr))
        ((runD tr).nextTimer + N - 1)) f = [] ∧
    mget (timerFire (schedN f N (runD tr))
        ((runD tr).nextTimer + N - 1)).queue f = none := by
  have hwf := runD_DWF tr
  obtain ⟨hwf', hinv, hnt, hq⟩ := schedN_spec hwf f N
  have hqt := hq hN
  have hactive := activeFor_eq_single hwf' hqt
  have hmem : ((runD tr).nextTimer + N - 1, f) ∈ (schedN f N (runD tr)).active := by
    have hin : ((runD tr).nextTimer + N - 1, f) ∈
        activeFor (schedN f N (runD tr)) f := by
      rw [hactive]
      exact List.mem_singleton_self _
    exact (List.mem_filter.mp hin).1
  have hfire := timerFire_of_active hwf' hmem
  refine ⟨fun g => activeFor_length_le_one hwf g, hinv, hactive, ?_, ?_, ?_⟩
  · rw [hfire]
    show (schedN f N (runD tr)).invocations ++ _ = _
    rw [hinv]
  · rw [hfire]
    apply List.eq_nil_iff_forall_not_mem.mpr
    intro p hp
    have hmf := List.mem_filter.mp hp
    have hmf2 := List.mem_filter.mp hmf.1
    have hp2 : p.2 = f := of_decide_eq_true hmf.2
    have hp1 : p.1 ≠ (runD tr).nextTimer + N - 1 := of_decide_eq_true hmf2.2
    have hget := (hwf'.act_iff p.1 p.2).mp (by rw [Prod.mk.eta]; exact hmf2.1)
    rw [hp2, hqt] at hget
    exact hp1 (Option.some.inj hget).symm
  · rw [hfire]
    exact mget_mdel_self _ _

/-- Witness for C8: after an unrelated schedule for another file, three
trigger events for the file collapse to a single live timer and a single
downstream invocation when it fires. -/
theorem scheduleAnalysis_debounces_to_single_invocation_w :
    (activeFor (runD [DEvent.schedule "/p/b.py"]) "/p/a.py").length ≤ 1 ∧
    (schedN "/p/a.py" 3 (runD [DEvent.schedule "/p/b.py"])).invocations =
      (runD [DEvent.schedule "/p/b.py"]).invocations ∧
    activeFor (schedN "/p/a.py" 3 (runD [DEvent.schedule "/p/b.py"]))
        "/p/a.py" =
      [((runD [DEvent.schedule "/p/b.py"]).nextTimer + 3 - 1, "/p/a.py")] ∧
    (timerFire (schedN "/p/a.py" 3 (runD [DEvent.schedule "/p/b.py"]))
        ((runD [DEvent.schedule "/p/b.py"]).nextTimer + 3 - 1)).invocations =
      (runD [DEvent.schedule "/p/b.py"]).invocations ++
        [((runD [DEvent.schedule "/p/b.py"]).nextTimer + 3 - 1, "/p/a.py")] := by
  have h := scheduleAnalysis_debounces_to_single_invocation
    [DEvent.schedule "/p/b.py"] "/p/a.py" 3 (by decide)
  exact ⟨h.1 "/p/a.py", h.2.1, h.2.2.1, h.2.2.2.1⟩

/-- C9: closing a file with a pending debounce timer cancels the timer
without firing it: the downstream analysis-and-render step is not
invoked, the file leaves the pending map, no live timer for it remains,
and the cancelled timer can never fire afterwards. -/
theorem closeDocument_cancels_timer_without_firing (tr : List DEvent)
    (f : String) :
    (closeDocument (runD tr) f).invocations = (runD tr).invocations ∧
    mget (closeDocument (runD tr) f).queue f = none ∧
    activeFor (closeDocument (runD tr) f) f = [] ∧
    (∀ t, (t, f) ∈ (runD tr).active →
      timerFire (closeDocument (runD tr) f) t = closeDocument (runD tr) f) := by
  have hwf := runD_DWF tr
  cases hq : mget (runD tr).queue f with
  | none =>
      have hclose : closeDocument (runD tr) f = runD tr := by
        unfold closeDocument
        rw [hq]
      rw [hclose]
      refine ⟨rfl, hq, activeFor_eq_nil hwf hq, fun t hmem => ?_⟩
      exfalso
      have := (hwf.act_iff t f).mp hmem
      rw [hq] at this
      exact Option.noConfusion this
  | some t0 =>
      have hclose : closeDocument (runD tr) f =
          { queue := mdel (runD tr).queue f
            nextTimer := (runD tr).nextTimer
            active := (runD tr).active.filter (fun p => decide (p.1 ≠ t0))
            invocations := (runD tr).invocations } := by
        unfold closeDocument
        rw [hq]
      refine ⟨by rw [hclose], by rw [hclose]; exact mget_mdel_self _ _, ?_, ?_⟩
      · rw [hclose]
        apply List.eq_nil_iff_forall_not_mem.mpr
        intro p hp
        have hmf := List.mem_filter.mp hp
        have hmf2 := List.mem_filter.mp hmf.1
        have hp2 : p.2 = f := of_decide_eq_true hmf.2
        have hp1 : p.1 ≠ t0 := of_decide_eq_true hmf2.2
        have hget := (hwf.act_iff p.1 p.2).mp (by rw [Prod.mk.eta]; exact hmf2.1)
        rw [hp2, hq] at hget
        exact hp1 (Option.some.inj hget).symm
      · intro t hmem
        have ht : t = t0 := by
          have := (hwf.act_iff t f).mp hmem
          rw [hq] at this
          exact Option.some.inj this.symm
        rw [hclose]
        unfold timerFire
        have hfind : ((runD tr).active.filter
            (fun p => decide (p.1 ≠ t0))).find? (fun q => decide (q.1 = t)) =
            none := by
          apply List.find?_eq_none.mpr
          intro q hqmem hdec
          have hne : q.1 ≠ t0 := of_decide_eq_true (List.mem_filter.mp hqmem).2
          have heq : q.1 = t := of_decide_eq_true hdec
          rw [ht] at heq
          exact hne heq
        rw [hfind]

/-- Witness for C9: with timers pending for two files, closing the first
cancels its timer without any downstream invocation, and the cancelled
timer firing afterwards is a no-op. -/
theorem closeDocument_cancels_timer_without_firing_w :
    (closeDocument (runD [DEvent.schedule "/p/a.py", DEvent.schedule "/p/b.py"])
      "/p/a.py").invocations =
      (runD [DEvent.schedule "/p/a.py", DEvent.schedule "/p/b.py"]).invocations ∧
    mget (closeDocument (runD [DEvent.schedule "/p/a.py",
      DEvent.schedule "/p/b.py"]) "/p/a.py").queue "/p/a.py" = none ∧
    timerFire (closeDocument (runD [DEvent.schedule "/p/a.py",
        DEvent.schedule "/p/b.py"]) "/p/a.py") 0 =
      closeDocument (runD [DEvent.schedule "/p/a.py",
        DEvent.schedule "/p/b.py"]) "/p/a.py" := by
  have h := closeDocument_cancels_timer_without_firing
    [DEvent.schedule "/p/a.py", DEvent.schedule "/p/b.py"] "/p/a.py"
  exact ⟨h.1, h.2.1, h.2.2.2 0 (by decide)⟩
